import Mathlib

/-!
Verification of the interpreter core of fuzzy.py (the "3.0" language):
a shallow embedding of the fuzzy dictionary, the lexicon loader, the
word/number conversions and arithmetic, the prefix parser and the
statement executor, together with proofs about them.

Python strings are modelled as lists of characters (`Word`), machine
integers as `Int` (Python ints are unbounded), Python float results of
exact integer formulas as `Rat`, raising code as `Option`/`Except`
results, and `while` loops as fuel-indexed recursions where `none`
models nontermination or an uncaught exception.
-/

set_option linter.unusedVariables false
set_option maxRecDepth 10000

namespace Fuzzy

/-- Python strings are modelled as lists of characters. -/
abbrev Word := List Char

/-! ## FuzzyDict -/

/-- Embedding of the class FuzzyDict.  The Python dict `self.data` maps
stored keys to values where a stored value of `None` marks an ambiguous
fuzzy key; it is modelled as a function into `Option (Option V)`
(`none` = key not stored, `some none` = stored with value `None`).
The set `self.base` is modelled by its membership function. -/
structure FuzzyDict (V : Type) where
  chars : Word
  strict : Bool
  base : Word → Bool
  data : Word → Option (Option V)

namespace FuzzyDict

/-- Construction `FuzzyDict(chars, strict = ...)` with no initial data. -/
def empty {V : Type} (chars : Word) (strict : Bool) : FuzzyDict V :=
  ⟨chars, strict, fun _ => false, fun _ => none⟩

/-- Method `_trim`: remove every character that is not in `chars`,
preserving order. -/
def trim (chars : Word) (word : Word) : Word :=
  word.filter (fun c => decide (c ∈ chars))

/-- Loop of the generator `_fuzzies` over an already trimmed word: for
each index, and for each replacement character from `chars` different
from the character at that index, the word with that single character
replaced. -/
def fuzzies (chars : Word) : Word → List Word
  | [] => []
  | old :: rest =>
      (chars.filter (fun new => decide (new ≠ old))).map (fun new => new :: rest)
        ++ (fuzzies chars rest).map (fun tail => old :: tail)

/-- Method `_fuzzies`, which first trims its argument. -/
def fuzziesOf {V : Type} (d : FuzzyDict V) (word : Word) : List Word :=
  fuzzies d.chars (trim d.chars word)

/-- Method `__getitem__`: look the trimmed key up in `data`; a missing
key (Python `KeyError`) yields `None`, and a stored `None` (ambiguous
key) is returned as is, so both cases are observed as `none`. -/
def getItem {V : Type} (d : FuzzyDict V) (key : Word) : Option V :=
  (d.data (trim d.chars key)).getD none

/-- Pointwise update of the `data` function (a Python dict assignment). -/
def upd {V : Type} (f : Word → Option (Option V)) (k : Word) (v : Option (Option V)) :
    Word → Option (Option V) :=
  fun s => if s = k then v else f s

/-- Body of the fuzzy-match loop of `__setitem__` for a single
neighbour `fuzzed`: an already stored non-base neighbour is nerfed to
`None`, an unstored non-base neighbour receives the value, and a base
neighbour is left alone. -/
def setStep {V : Type} (d : FuzzyDict V) (value : V) (fuzzed : Word) : FuzzyDict V :=
  if (d.data fuzzed).isSome && !(d.base fuzzed) then
    { d with data := upd d.data fuzzed (some none) }
  else if !(d.base fuzzed) then
    { d with data := upd d.data fuzzed (some (some value)) }
  else d

/-- The fuzzy-match loop of `__setitem__` over the listed neighbours. -/
def setLoop {V : Type} (d : FuzzyDict V) (value : V) : List Word → FuzzyDict V
  | [] => d
  | f :: rest => setLoop (setStep d value f) value rest

/-- Method `__setitem__`: trim the key, raise `KeyError` (`none`) on a
strict conflict with an existing base key, otherwise record the key as
base, store the value, and run the fuzzy-match loop. -/
def setItem {V : Type} (d : FuzzyDict V) (key : Word) (value : V) : Option (FuzzyDict V) :=
  let k := trim d.chars key
  if d.base k && d.strict then none
  else
    let d1 : FuzzyDict V :=
      { d with base := fun s => if s = k then true else d.base s,
               data := upd d.data k (some (some value)) }
    some (setLoop d1 value (fuzziesOf d1 k))

end FuzzyDict

/-- The word `n` is obtained from `k` by replacing exactly one character
with a different character drawn from `chars`: a Hamming distance 1
neighbour of `k` over `chars`. -/
def hammingOne (chars k n : Word) : Prop :=
  ∃ pre c c' suf, c' ∈ chars ∧ c' ≠ c ∧ k = pre ++ c :: suf ∧ n = pre ++ c' :: suf

/-- The word `n` is at Hamming distance 0 or 1 from `k` over `chars`. -/
def withinOne (chars k n : Word) : Prop :=
  n = k ∨ hammingOne chars k n

/-- Concrete empty dictionary over the three characters a, b, c. -/
def fdEmpty : FuzzyDict Nat := FuzzyDict.empty ['a', 'b', 'c'] true

/-- The dictionary after inserting the base key a with value 1. -/
def fd1 : FuzzyDict Nat := (FuzzyDict.setItem fdEmpty ['a'] 1).getD fdEmpty

/-- The dictionary after additionally inserting the base key b with value 2. -/
def fd2 : FuzzyDict Nat := (FuzzyDict.setItem fd1 ['b'] 2).getD fdEmpty

/-! ## Numerics -/

/-- Python `self.digits.index(char)`: the position of the first
occurrence, `none` modelling the `ValueError` branch. -/
def digitIndex : Word → Char → Option Nat
  | [], _ => none
  | d :: ds, c => if d = c then some 0 else (digitIndex ds c).map (· + 1)

/-- Count of sign characters anywhere in the (unlowered) word, summed
over the sign characters as in the source loop. -/
def signCount (signs : Word) (word : Word) : Nat :=
  (signs.map (fun c => word.count c)).sum

/-- Scanning loop of `fraction`: digits accumulate into the whole part
until a decimal character switches to numerator mode, where each digit
also multiplies the denominator by the base; other characters are
skipped. -/
def fracLoop (digits decimals : Word) : Word → ℤ → ℤ → ℤ → Bool → ℤ × ℤ × ℤ
  | [], whole, numer, denom, _ => (whole, numer, denom)
  | c :: rest, whole, numer, denom, wholeMode =>
      match digitIndex digits c with
      | some i =>
          if wholeMode then
            fracLoop digits decimals rest (whole * (digits.length : ℤ) + i) numer denom wholeMode
          else
            fracLoop digits decimals rest whole (numer * (digits.length : ℤ) + i)
              (denom * (digits.length : ℤ)) wholeMode
      | none =>
          if c ∈ decimals then fracLoop digits decimals rest whole numer denom false
          else fracLoop digits decimals rest whole numer denom wholeMode

/-- The digit scan of `fraction` (over the lowercased word), before the
sign count is applied. -/
def fracScanCore (digits decimals : Word) (word : Word) : ℤ × ℤ × ℤ :=
  fracLoop digits decimals (word.map Char.toLower) 0 0 1 true

/-- Method `fraction`: the scan result with the whole part negated when
the word holds an odd number of sign characters. -/
def fractionCore (digits decimals signs : Word) (word : Word) : ℤ × ℤ × ℤ :=
  let t := fracScanCore digits decimals word
  if signCount signs word % 2 = 1 then (-t.1, t.2.1, t.2.2) else t

/-- Scanning loop of `int`: digits accumulate until the first decimal
character breaks the loop; other characters are skipped. -/
def intLoop (digits decimals : Word) : Word → ℤ → ℤ
  | [], acc => acc
  | c :: rest, acc =>
      match digitIndex digits c with
      | some i => intLoop digits decimals rest (acc * (digits.length : ℤ) + i)
      | none => if c ∈ decimals then acc else intLoop digits decimals rest acc

/-- Method `int`: the integer scan with the odd-sign negation. -/
def intCore (digits decimals signs : Word) (word : Word) : ℤ :=
  let w := intLoop digits decimals (word.map Char.toLower) 0
  if signCount signs word % 2 = 1 then -w else w

/-- Method `float` as an exact rational: whole + numerator/denominator,
written as the single exact quotient (whole * den + num) / den so that
the definition evaluates by kernel reduction (the rational addition and
division operators are irreducible); `floatCore_eq` below restates it
in the operator form.  The Python original computes an IEEE double;
every claim proved here only uses values where the two agree. -/
def floatCore (digits decimals signs : Word) (word : Word) : ℚ :=
  let f := fractionCore digits decimals signs word
  Rat.divInt (f.1 * f.2.2 + f.2.1) f.2.2

/-- Method `num`: the fraction value as a rational when the numerator
is nonzero, otherwise the signed whole part (an int in the source),
in the same kernel-reducible quotient form as `floatCore`. -/
def numCore (digits decimals signs : Word) (word : Word) : ℚ :=
  let f := fractionCore digits decimals signs word
  if f.2.1 ≠ 0 then Rat.divInt (f.1 * f.2.2 + f.2.1) f.2.2 else Rat.divInt f.1 1

/-! ## Lexicon -/

/-- Embedding of the class Lexicon after loading: the character
classes, the sorted statement dispatch (commands and breaks), and the
two fuzzy maps.  The source attribute named variables is modelled by
the field `vars` (the source name is a reserved token here).  The
attribute `base` is always `len(digits)` in the source and is modelled
as a derived function. -/
structure Lexicon where
  digits : Word
  decimals : Word
  signs : Word
  chars : Word
  commands : List String
  breaks : List ℚ
  keywords : FuzzyDict String
  vars : FuzzyDict Word

namespace Lexicon

/-- Attribute `base = len(self.digits)`. -/
def base (L : Lexicon) : Nat := L.digits.length

/-- Method `fraction`. -/
def fraction (L : Lexicon) (word : Word) : ℤ × ℤ × ℤ :=
  fractionCore L.digits L.decimals L.signs word

/-- The unsigned digit scan underlying `fraction`. -/
def fracScan (L : Lexicon) (word : Word) : ℤ × ℤ × ℤ :=
  fracScanCore L.digits L.decimals word

/-- Method `int`. -/
def int (L : Lexicon) (word : Word) : ℤ :=
  intCore L.digits L.decimals L.signs word

/-- Method `float` (exact). -/
def float (L : Lexicon) (word : Word) : ℚ :=
  floatCore L.digits L.decimals L.signs word

/-- Method `num` (exact). -/
def num (L : Lexicon) (word : Word) : ℚ :=
  numCore L.digits L.decimals L.signs word

/-- One `while` loop of `conform`, raising the denominator of `x` by
factors of the base until it is at least `target`; the fuel bounds the
number of iterations and `none` models nontermination. -/
def conformLoop (B : ℤ) : Nat → ℤ × ℤ × ℤ → ℤ → Option (ℤ × ℤ × ℤ)
  | 0, x, target => if x.2.2 < target then none else some x
  | fuel + 1, x, target =>
      if x.2.2 < target then conformLoop B fuel (x.1, x.2.1 * B, x.2.2 * B) target
      else some x

/-- Method `conform`: raise the first fraction towards the second
denominator, then the second towards the (possibly raised) first. -/
def conform (L : Lexicon) (fuel : Nat) (x y : ℤ × ℤ × ℤ) :
    Option ((ℤ × ℤ × ℤ) × (ℤ × ℤ × ℤ)) := do
  let x' ← conformLoop (L.base : ℤ) fuel x y.2.2
  let y' ← conformLoop (L.base : ℤ) fuel y x'.2.2
  some (x', y')

/-- The `while whole:` rendering loop of `word`: repeated floor divmod
by the base, prepending digits.  `none` models the `ZeroDivisionError`
on an empty digit set and the nontermination on negative input. -/
def wordDigitsLoop (digits : Word) : Nat → ℤ → Word → Option Word
  | fuel, w, acc =>
      if w = 0 then some acc
      else
        match fuel with
        | 0 => none
        | fuel + 1 =>
            if digits.length = 0 then none
            else
              match digits.get? (w.fmod (digits.length : ℤ)).toNat with
              | none => none
              | some d => wordDigitsLoop digits fuel (w.fdiv (digits.length : ℤ)) (d :: acc)

/-- The leading-zero loop of `word`: while numerator * base < denominator,
append the zero digit and floor-divide the denominator by the base. -/
def wordZerosLoop (digits : Word) : Nat → ℤ → ℤ → Word → Option (Word × ℤ)
  | fuel, numer, denom, acc =>
      if numer * (digits.length : ℤ) < denom then
        match fuel with
        | 0 => none
        | fuel + 1 =>
            match digits.get? 0 with
            | none => none
            | some d0 => wordZerosLoop digits fuel numer (denom.fdiv (digits.length : ℤ)) (acc ++ [d0])
      else some (acc, denom)

/-- Method `word`: render the whole part, and when the numerator is
nonzero append the first decimal character, the leading zeros, and the
numerator digits. -/
def word (L : Lexicon) (fuel : Nat) (frac : ℤ × ℤ × ℤ) : Option Word :=
  match wordDigitsLoop L.digits fuel frac.1 [] with
  | none => none
  | some left =>
      if frac.2.1 ≠ 0 then
        match L.decimals.get? 0 with
        | none => none
        | some d0 =>
            match wordZerosLoop L.digits fuel frac.2.1 frac.2.2 [] with
            | none => none
            | some (zeros, _) =>
                match wordDigitsLoop L.digits fuel frac.2.1 [] with
                | none => none
                | some rightChars => some (left ++ d0 :: (zeros ++ rightChars))
      else some left

/-- Method `add`: conform the two fractions then add componentwise. -/
def add (L : Lexicon) (fuel : Nat) (a b : Word) : Option Word := do
  let (x, y) ← L.conform fuel (L.fraction a) (L.fraction b)
  L.word fuel (x.1 + y.1, x.2.1 + y.2.1, x.2.2)

/-- Method `subtract`: conform the two fractions then subtract
componentwise. -/
def subtract (L : Lexicon) (fuel : Nat) (a b : Word) : Option Word := do
  let (x, y) ← L.conform fuel (L.fraction a) (L.fraction b)
  L.word fuel (x.1 - y.1, x.2.1 - y.2.1, x.2.2)

/-- Method `multiply`: cross product of the two fractions with
denominator the product of the two numerators; when the numerator
exceeds the denominator the divmod split raises `ZeroDivisionError`
(`none`) for a zero denominator. -/
def multiply (L : Lexicon) (fuel : Nat) (a b : Word) : Option Word :=
  let x := L.fraction a
  let y := L.fraction b
  let numerator := (x.1 * x.2.2 + x.2.1) * (y.1 * y.2.2 + y.2.1)
  let denominator := x.2.1 * y.2.1
  if numerator > denominator then
    if denominator = 0 then none
    else L.word fuel (numerator.fdiv denominator, numerator.fmod denominator, denominator)
  else L.word fuel (0, numerator, denominator)

/-- Method `mod` of the source computes `x = self.float(a)` and
`y = self.int(b)` and then evaluates `x[0]`, which subscripts a number
and raises `TypeError` for every input; its return line also references
the undefined name `total` (`NameError`).  The method therefore never
produces a word, which the embedding records as a constant failure
after the two conversions. -/
def mod (L : Lexicon) (a b : Word) : Option Word :=
  let x : ℚ := L.float a
  let y : ℤ := L.int b
  none

/-- Python `bisect.bisect(breaks, x)` on the sorted break table: the
number of breaks not exceeding x (equal to the binary-search insertion
point whenever the table is sorted, which the loader guarantees). -/
def bisectRight (breaks : List ℚ) (x : ℚ) : Nat :=
  breaks.countP (fun b => decide (b ≤ x))

/-- Method `tight`: numeric-distance dispatch of a word to a statement
name; `none` models the `IndexError` on an ill-formed command table. -/
def tight (L : Lexicon) (w : Word) : Option String :=
  L.commands.get? (bisectRight L.breaks (L.float w))

end Lexicon

/-! ## Lexicon loading -/

/-- Python `str.strip()` on a character list. -/
def stripList (l : Word) : Word :=
  ((l.dropWhile Char.isWhitespace).reverse.dropWhile Char.isWhitespace).reverse

/-- Python `str.lower()` on a character list. -/
def lowerList (l : Word) : Word :=
  l.map Char.toLower

/-- Python `str.split(sep)` for a single-character separator. -/
def splitOnChar (sep : Char) (l : Word) : List Word :=
  l.foldr
    (fun c acc =>
      match acc with
      | [] => if c = sep then [[], []] else [[c]]
      | cur :: rest => if c = sep then [] :: cur :: rest else (c :: cur) :: rest)
    [[]]

/-- The class attribute `statements` of Lexicon, as words. -/
def statementsW : List Word :=
  ["assign".data, "calculate".data, "exit".data, "go".data, "if".data,
    "print".data, "return".data]

/-- The mutable attributes of Lexicon while its `__init__` loop reads
the lexicon file.  The fuzzy maps do not exist before the character
classes are complete (`none` models the missing attribute, whose use
would raise `AttributeError`). -/
structure LexInitState where
  digits : Word := []
  decimals : Word := []
  signs : Word := []
  chars : Word := []
  commands : List (ℚ × String) := []
  keywords : Option (FuzzyDict String) := none
  lexvars : Option (FuzzyDict Word) := none

/-- The alias loop of a command line: statement aliases append their
numeric value to the command list, every other alias is inserted into
the strict keywords map (whose absence or key conflict is a fault). -/
def processAliases (key : Word) : LexInitState → List Word → Option LexInitState
  | st, [] => some st
  | st, al :: rest =>
      if statementsW.contains key then
        processAliases key
          { st with commands := st.commands ++
              [(floatCore st.digits st.decimals st.signs al, String.mk key)] } rest
      else
        match st.keywords with
        | none => none
        | some kw =>
            match FuzzyDict.setItem kw (stripList al) (String.mk key) with
            | none => none
            | some kw2 => processAliases key { st with keywords := some kw2 } rest

/-- The derived-attribute step run after each processed line: as soon
as all three character classes are nonempty and chars is still unset,
build chars and create the two fuzzy maps (keywords strict, the
variables map non-strict), both empty. -/
def maybeDerive (st : LexInitState) : LexInitState :=
  if st.chars.isEmpty && !st.digits.isEmpty && !st.decimals.isEmpty && !st.signs.isEmpty then
    let chars := st.digits ++ st.decimals ++ st.signs
    { st with chars := chars,
              keywords := some (FuzzyDict.empty chars true),
              lexvars := some (FuzzyDict.empty chars false) }
  else st

/-- Processing of one line of the lexicon file: blank lines and lines
opening with a parenthesis are skipped, every other line must split
into exactly one key and one value on the colon (`none` models the
`ValueError` otherwise), keys digits/decimals/signs set the character
classes and any other key is a command whose comma-separated aliases
are processed; the derived-attribute step runs afterwards. -/
def initLine (st : LexInitState) (line : Word) : Option LexInitState :=
  if (stripList line).isEmpty then some st
  else if line.head? = some '(' then some st
  else
    match splitOnChar ':' (lowerList (stripList line)) with
    | [key0, value] =>
        let key := stripList key0
        let st2 :=
          if key = "digits".data then some { st with digits := stripList value }
          else if key = "decimals".data then some { st with decimals := stripList value }
          else if key = "signs".data then some { st with signs := stripList value }
          else processAliases key st (splitOnChar ',' value)
        match st2 with
        | none => none
        | some st3 => some (maybeDerive st3)
    | _ => none

/-- The line loop of `Lexicon.__init__`. -/
def lexInitLines : LexInitState → List Word → Option LexInitState
  | st, [] => some st
  | st, line :: rest =>
      match initLine st line with
      | none => none
      | some st2 => lexInitLines st2 rest

/-- Python tuple comparison on (value, name) command entries. -/
def cmdLt (p q : ℚ × String) : Bool :=
  decide (p.1 < q.1) || (decide (p.1 = q.1) && decide (p.2 < q.2))

/-- Sorted insertion for the command table. -/
def insertCmd (p : ℚ × String) : List (ℚ × String) → List (ℚ × String)
  | [] => [p]
  | q :: rest => if cmdLt p q then p :: q :: rest else q :: insertCmd p rest

/-- Python `commands.sort()` (ascending by value, ties by name; equal
entries are indistinguishable, so stability is immaterial). -/
def sortCmds : List (ℚ × String) → List (ℚ × String)
  | [] => []
  | p :: rest => insertCmd p (sortCmds rest)

/-- The bisection set-up after the line loop: sort the commands, walk
consecutive pairs recording names and midpoint breaks, and append the
final name.  Fewer than two statement aliases leave the loop variable
of the final append unbound (`NameError`, modelled as `none`), and a
lexicon whose fuzzy maps were never created is unusable. -/
def buildLexicon (st : LexInitState) : Option Lexicon :=
  match st.keywords, st.lexvars with
  | some kw, some vs =>
      match sortCmds st.commands with
      | [] => none
      | [_] => none
      | first :: rest =>
          let sorted := first :: rest
          let pairs := sorted.zip (sorted.drop 1)
          some { digits := st.digits, decimals := st.decimals, signs := st.signs,
                 chars := st.chars,
                 commands := pairs.map (fun p => p.1.2) ++ [(sorted.getLastD first).2],
                 breaks := pairs.map (fun p => p.1.1 + (p.2.1 - p.1.1) / 2),
                 keywords := kw, vars := vs }
  | _, _ => none

/-- Method `Lexicon.__init__` over the lines of the lexicon file. -/
def Lexicon.init (lines : List Word) : Option Lexicon :=
  (lexInitLines {} lines).bind buildLexicon

/-! ## Expressions and the interpreter -/

/-- Parsed code: a Python parse tree is either a raw token (a word) or
a list holding a function name and its argument trees. -/
inductive Expr where
  | word : Word → Expr
  | app : String → List Expr → Expr
deriving Repr

/-- The class attribute `Interpreter.args`: the arity of each
statement and function name; `none` models the dict `KeyError`. -/
def Interpreter.argsTable : List (String × Nat) :=
  [("add", 2), ("and", 2), ("assign", 2), ("calculate", 1), ("concatenate", 2),
   ("divide", 2), ("equal", 2), ("exit", 0), ("false", 0), ("go", 1),
   ("greater", 2), ("if", 1), ("input", 1), ("left", 2), ("less", 2),
   ("modulus", 2), ("more", 2), ("multiply", 2), ("not", 1), ("or", 2),
   ("period", 0), ("power", 2), ("print", 1), ("return", 0), ("right", 2),
   ("space", 0), ("subtract", 2), ("true", 0)]

/-- Arity lookup in the args dict. -/
def Interpreter.args (s : String) : Option Nat :=
  Interpreter.argsTable.lookup s

/-- Methods `evaluate` and `handle_function` with all the `func_*`
handlers inlined at their dispatch cases, as one fuel-indexed
evaluator.  A word is looked up as a variable and falls back to
itself; an application evaluates its arguments left to right (threading
the input stream consumed by `func_input`) and applies the handler.
`none` models every runtime fault: unknown names and arity mismatches
(`AttributeError`/`TypeError` of the dynamic dispatch), the failing
arithmetic methods, reading input after exhaustion, and fuel
exhaustion (unbounded recursion).  The cases divide and power, which
use IEEE floating point division and exponentiation in the source, are
out of scope and modelled as unevaluated faults after their argument
evaluation. -/
def Interpreter.evaluate (L : Lexicon) (vars : FuzzyDict Word) :
    Nat → Expr → List Word → Option (Word × List Word)
  | 0, _, _ => none
  | _ + 1, Expr.word w, inp =>
      match vars.getItem w with
      | some v => some (v, inp)
      | none => some (w, inp)
  | fuel + 1, Expr.app name args, inp =>
      match name, args with
      | "add", [x, y] => do
          let (xv, i1) ← Interpreter.evaluate L vars fuel x inp
          let (yv, i2) ← Interpreter.evaluate L vars fuel y i1
          let w ← L.add fuel xv yv
          some (w, i2)
      | "and", [x, y] => do
          let (xv, i1) ← Interpreter.evaluate L vars fuel x inp
          let (yv, i2) ← Interpreter.evaluate L vars fuel y i1
          if L.num xv ≠ 0 ∧ L.num yv ≠ 0 then some (xv, i2)
          else if L.num xv ≠ 0 then some (yv, i2)
          else some (xv, i2)
      | "concatenate", [x, y] => do
          let (xv, i1) ← Interpreter.evaluate L vars fuel x inp
          let (yv, i2) ← Interpreter.evaluate L vars fuel y i1
          some (xv ++ yv, i2)
      | "divide", [x, y] => do
          let (xv, i1) ← Interpreter.evaluate L vars fuel x inp
          let (yv, i2) ← Interpreter.evaluate L vars fuel y i1
          none
      | "equal", [x, y] => do
          let (xv, i1) ← Interpreter.evaluate L vars fuel x inp
          let (yv, i2) ← Interpreter.evaluate L vars fuel y i1
          if L.num xv = L.num yv then some ("aceyz".data, i2) else some ("bozob".data, i2)
      | "false", [] => some ("bozo".data, inp)
      | "greater", [x, y] => do
          let (xv, i1) ← Interpreter.evaluate L vars fuel x inp
          let (yv, i2) ← Interpreter.evaluate L vars fuel y i1
          if L.num xv > L.num yv then some ("aceyz".data, i2) else some ("bozob".data, i2)
      | "input", [p] => do
          let (pv, i1) ← Interpreter.evaluate L vars fuel p inp
          match i1 with
          | [] => none
          | l :: rest => some (l, rest)
      | "left", [t, n] => do
          let (tv, i1) ← Interpreter.evaluate L vars fuel t inp
          let (nv, i2) ← Interpreter.evaluate L vars fuel n i1
          some (tv.take ((L.int nv).fmod ((tv.length : ℤ) + 1)).toNat, i2)
      | "less", [x, y] => do
          let (xv, i1) ← Interpreter.evaluate L vars fuel x inp
          let (yv, i2) ← Interpreter.evaluate L vars fuel y i1
          if L.num xv < L.num yv then some ("aceyz".data, i2) else some ("bozob".data, i2)
      | "modulus", [x, y] => do
          let (xv, i1) ← Interpreter.evaluate L vars fuel x inp
          let (yv, i2) ← Interpreter.evaluate L vars fuel y i1
          none
      | "multiply", [x, y] => do
          let (xv, i1) ← Interpreter.evaluate L vars fuel x inp
          let (yv, i2) ← Interpreter.evaluate L vars fuel y i1
          let w ← L.multiply fuel xv yv
          some (w, i2)
      | "not", [x] => do
          let (xv, i1) ← Interpreter.evaluate L vars fuel x inp
          if xv ≠ [] then some ("aceyz".data, i1) else some ("bozob".data, i1)
      | "or", [x, y] => do
          let (xv, i1) ← Interpreter.evaluate L vars fuel x inp
          let (yv, i2) ← Interpreter.evaluate L vars fuel y i1
          if L.num xv ≠ 0 then some (xv, i2)
          else if L.num yv ≠ 0 then some (yv, i2)
          else some (xv, i2)
      | "period", [] => some (['.'], inp)
      | "power", [x, y] => do
          let (xv, i1) ← Interpreter.evaluate L vars fuel x inp
          let (yv, i2) ← Interpreter.evaluate L vars fuel y i1
          none
      | "right", [t, n] => do
          let (tv, i1) ← Interpreter.evaluate L vars fuel t inp
          let (nv, i2) ← Interpreter.evaluate L vars fuel n i1
          some (tv.drop ((L.int nv).fmod ((tv.length : ℤ) + 1)).toNat, i2)
      | "space", [] => some ([' '], inp)
      | "subtract", [x, y] => do
          let (xv, i1) ← Interpreter.evaluate L vars fuel x inp
          let (yv, i2) ← Interpreter.evaluate L vars fuel y i1
          let w ← L.subtract fuel xv yv
          some (w, i2)
      | "true", [] => some ("ace".data, inp)
      | _, _ => none

/-- Method `func_left`: evaluate the text and the length expressions,
take the length as an integer modulo one more than the text length,
and return that many characters from the left (the inline left case of
the dispatcher above). -/
def Interpreter.funcLeft (L : Lexicon) (vars : FuzzyDict Word) (fuel : Nat)
    (text len : Expr) (inp : List Word) : Option (Word × List Word) := do
  let (tv, i1) ← Interpreter.evaluate L vars fuel text inp
  let (nv, i2) ← Interpreter.evaluate L vars fuel len i1
  some (tv.take ((L.int nv).fmod ((tv.length : ℤ) + 1)).toNat, i2)

/-- Method `func_right`: the same split index, returning the
characters from that index on. -/
def Interpreter.funcRight (L : Lexicon) (vars : FuzzyDict Word) (fuel : Nat)
    (text len : Expr) (inp : List Word) : Option (Word × List Word) := do
  let (tv, i1) ← Interpreter.evaluate L vars fuel text inp
  let (nv, i2) ← Interpreter.evaluate L vars fuel len i1
  some (tv.drop ((L.int nv).fmod ((tv.length : ℤ) + 1)).toNat, i2)

/-- Output of an execution: `exec_print` emits a word, and
`exec_calculate` emits the numeric value of a word. -/
inductive OutEvent where
  | word : Word → OutEvent
  | num : ℚ → OutEvent
deriving Repr

/-- Python UserDict.copy applied to a FuzzyDict re-inserts the stored
entries; the lexicon variables map it is applied to is always empty,
on which it coincides with this field-for-field copy. -/
def FuzzyDict.copy {V : Type} (d : FuzzyDict V) : FuzzyDict V :=
  ⟨d.chars, d.strict, d.base, d.data⟩

/-- The variable scope at the start of `execute`:
`self.variables = self.lexicon.variables.copy()`. -/
def Interpreter.startVars (L : Lexicon) : FuzzyDict Word :=
  FuzzyDict.copy L.vars

/-- The per-execution state of `execute`: program counter, return
stack, variable scope, and the output and input streams. -/
structure ExecState where
  pointer : Nat
  returns : List Nat
  vars : FuzzyDict Word
  output : List OutEvent
  input : List Word

/-- The initial state of `execute`. -/
def Interpreter.initState (L : Lexicon) (inp : List Word) : ExecState :=
  ⟨0, [], Interpreter.startVars L, [], inp⟩

/-- One statement dispatch of the execution loop (the `exec_*`
methods), applied after the pointer was advanced.  `none` models the
runtime faults: unknown statement heads and arity mismatches of the
dynamic dispatch, faults inside evaluation, `go` on an empty program
(`ZeroDivisionError`), and assignment to a non-word target. -/
def Interpreter.execLine (L : Lexicon) (prog : List Expr) (fuel : Nat)
    (st : ExecState) : Expr → Option ExecState
  | Expr.app "assign" [Expr.word target, value] => do
      let (v, i1) ← Interpreter.evaluate L st.vars fuel value st.input
      let vars2 ← FuzzyDict.setItem st.vars target v
      some { st with vars := vars2, input := i1 }
  | Expr.app "calculate" [value] => do
      let (v, i1) ← Interpreter.evaluate L st.vars fuel value st.input
      some { st with output := st.output ++ [OutEvent.num (L.num v)], input := i1 }
  | Expr.app "exit" [] => some { st with pointer := prog.length }
  | Expr.app "go" [target] => do
      let (v, i1) ← Interpreter.evaluate L st.vars fuel target st.input
      if prog.length = 0 then none
      else
        some { st with returns := st.returns ++ [st.pointer],
                       pointer := ((L.int v - 1).fmod (prog.length : ℤ)).toNat,
                       input := i1 }
  | Expr.app "if" [value] => do
      let (v, i1) ← Interpreter.evaluate L st.vars fuel value st.input
      if L.float v = 0 then some { st with pointer := st.pointer + 1, input := i1 }
      else some { st with input := i1 }
  | Expr.app "print" [value] => do
      let (v, i1) ← Interpreter.evaluate L st.vars fuel value st.input
      some { st with output := st.output ++ [OutEvent.word v], input := i1 }
  | Expr.app "return" [] =>
      match st.returns.getLast? with
      | some p => some { st with pointer := p, returns := st.returns.dropLast }
      | none => some st
  | _ => none

/-- The loop of `execute`: fetch the line at the pointer (`none` on an
out-of-range pointer, the `IndexError` of an empty program), advance
the pointer, dispatch, and stop once the pointer reaches the program
length.  The fuel bounds the number of executed statements. -/
def Interpreter.run (L : Lexicon) (prog : List Expr) :
    Nat → ExecState → Option ExecState
  | 0, _ => none
  | fuel + 1, st => do
      let line ← prog.get? st.pointer
      let st2 ← Interpreter.execLine L prog fuel { st with pointer := st.pointer + 1 } line
      if prog.length ≤ st2.pointer then some st2
      else Interpreter.run L prog fuel st2

/-! ## Parser -/

/-- The two exception kinds that can escape `parse_args`: `IndexError`
from popping an empty token stack, and `KeyError` from an arity lookup
of a command name outside the args dict. -/
inductive ParseErr where
  | indexError : ParseErr
  | keyError : ParseErr
deriving Repr, DecidableEq

/-- Method `parse_args`, filling `n` argument slots from the token
stack: each slot pops a token, and a token that the keywords map
resolves to a function opens a nested application parsed recursively
with that function arity.  The returned remainder is bundled with the
fact that tokens are only consumed, which grounds the recursion. -/
def Interpreter.parseArgs (L : Lexicon) :
    (n : Nat) → (toks : List Word) →
      Except ParseErr (List Expr × { rest : List Word // rest.length ≤ toks.length })
  | 0, toks => Except.ok ([], ⟨toks, le_refl _⟩)
  | _ + 1, [] => Except.error ParseErr.indexError
  | n + 1, t :: toks =>
      match FuzzyDict.getItem L.keywords t with
      | some fname =>
          match Interpreter.args fname with
          | none => Except.error ParseErr.keyError
          | some m =>
              match Interpreter.parseArgs L m toks with
              | Except.error e => Except.error e
              | Except.ok (sub, ⟨rest1, h1⟩) =>
                  match Interpreter.parseArgs L n rest1 with
                  | Except.error e => Except.error e
                  | Except.ok (args, ⟨rest2, h2⟩) =>
                      Except.ok (Expr.app fname sub :: args,
                        ⟨rest2, by simp only [List.length_cons]; omega⟩)
      | none =>
          match Interpreter.parseArgs L n toks with
          | Except.error e => Except.error e
          | Except.ok (args, ⟨rest1, h1⟩) =>
              Except.ok (Expr.word t :: args,
                ⟨rest1, by simp only [List.length_cons]; omega⟩)
  termination_by n toks => (toks.length, n)
  decreasing_by
    · exact Prod.Lex.left _ _ (by simp [Nat.lt_succ_self])
    · exact Prod.Lex.left _ _ (by simp only [List.length_cons]; omega)
    · exact Prod.Lex.left _ _ (by simp [Nat.lt_succ_self])

/-- The statement loop of `parse`: pop a word, resolve it to a
statement by tight matching, parse its arguments, and append the line;
an `IndexError` during argument parsing (the token underflow) replaces
the current line by a bare exit statement, ending the program, while a
`KeyError` or a tight-match failure propagates (`none`). -/
def Interpreter.parseLoop (L : Lexicon) :
    (toks : List Word) → List Expr → Option (List Expr)
  | [], acc => some acc
  | w :: rest, acc =>
      match Lexicon.tight L w with
      | none => none
      | some s =>
          match Interpreter.args s with
          | none => none
          | some n =>
              match Interpreter.parseArgs L n rest with
              | Except.error ParseErr.indexError => some (acc ++ [Expr.app "exit" []])
              | Except.error ParseErr.keyError => none
              | Except.ok (args, ⟨rest2, h2⟩) =>
                  Interpreter.parseLoop L rest2 (acc ++ [Expr.app s args])
  termination_by toks _ => toks.length
  decreasing_by
    simp only [List.length_cons]
    omega

/-- Method `parse` on an already tokenized (lowercased,
whitespace-split) source file. -/
def Interpreter.parse (L : Lexicon) (toks : List Word) : Option (List Expr) :=
  Interpreter.parseLoop L toks []

/-! ## Concrete instances for witnesses and counterexamples -/

/-- The value of a fraction triple as a rational. -/
def fracVal (f : ℤ × ℤ × ℤ) : ℚ :=
  (f.1 : ℚ) + (f.2.1 : ℚ) / (f.2.2 : ℚ)

/-- The standard character set of the specification scenarios:
digits abcdefghij (base ten), decimal point, minus sign. -/
def demoChars : Word := "abcdefghij.-".data

/-- A loaded lexicon over the standard character classes, with two
statement aliases (print at value 0, go at value 10, so one break at
5) and empty fuzzy maps. -/
def demoLex : Lexicon :=
  { digits := "abcdefghij".data, decimals := ['.'], signs := ['-'],
    chars := demoChars,
    commands := ["print", "go"], breaks := [mkRat 5 1],
    keywords := FuzzyDict.empty demoChars true,
    vars := FuzzyDict.empty demoChars false }

/-- Lines of a small lexicon file defining the character classes, two
statement aliases, and aliases for the four zero-arity constants. -/
def demoLines : List Word :=
  ["( demonstration lexicon )".data,
   "digits : abcdefghij".data,
   "decimals : .".data,
   "signs : -".data,
   "print : foo".data,
   "go : bar".data,
   "true : ace".data,
   "false : bozo".data,
   "period : dot".data,
   "space : gap".data]

/-- The lexicon loaded from the demonstration lines. -/
def demoLoaded : Lexicon :=
  (Lexicon.init demoLines).getD demoLex

/-- The parsed if-skip scenario program:
if false, print skipped, print shown. -/
def prog3 : List Expr :=
  [Expr.app "if" [Expr.app "false" []],
   Expr.app "print" [Expr.word "skipped".data],
   Expr.app "print" [Expr.word "shown".data]]

/-! ### Lemmas about FuzzyDict -/

namespace FuzzyDict

theorem trim_eq_self {chars w : Word} (h : ∀ c ∈ w, c ∈ chars) :
    trim chars w = w := by
  unfold trim
  rw [List.filter_eq_self]
  intro a ha
  exact decide_eq_true (h a ha)

theorem hammingOne_ne {chars k n : Word} (h : Fuzzy.hammingOne chars k n) : n ≠ k := by
  obtain ⟨pre, c, c', suf, _, hne, hk, hn⟩ := h
  subst hk; subst hn
  intro h
  have h2 : c' :: suf = c :: suf := by
    have := congrArg (List.drop pre.length) h
    simpa [List.drop_left] using this
  exact hne (List.cons.inj h2).1

theorem hammingOne_mem_chars {chars k n : Word}
    (hk : ∀ c ∈ k, c ∈ chars) (h : Fuzzy.hammingOne chars k n) :
    ∀ c ∈ n, c ∈ chars := by
  obtain ⟨pre, c, c', suf, hc', _, hkeq, hneq⟩ := h
  subst hkeq; subst hneq
  intro a ha
  rcases List.mem_append.mp ha with h1 | h2
  · exact hk a (List.mem_append.mpr (Or.inl h1))
  · rcases List.mem_cons.mp h2 with rfl | h3
    · exact hc'
    · exact hk a (List.mem_append.mpr (Or.inr (List.mem_cons.mpr (Or.inr h3))))

theorem mem_fuzzies_of_hammingOne {chars k n : Word}
    (h : Fuzzy.hammingOne chars k n) : n ∈ fuzzies chars k := by
  obtain ⟨pre, c, c', suf, hc', hne, hkeq, hneq⟩ := h
  subst hkeq; subst hneq
  induction pre with
  | nil =>
      simp only [List.nil_append, fuzzies, List.mem_append]
      left
      rw [List.mem_map]
      exact ⟨c', List.mem_filter.mpr ⟨hc', by simpa using hne⟩, rfl⟩
  | cons p pre ih =>
      simp only [List.cons_append, fuzzies, List.mem_append]
      right
      rw [List.mem_map]
      exact ⟨pre ++ c' :: suf, ih, rfl⟩

theorem fuzzies_nodup {chars : Word} (h : chars.Nodup) :
    ∀ k : Word, (fuzzies chars k).Nodup := by
  intro k
  induction k with
  | nil => simp [fuzzies]
  | cons old rest ih =>
      rw [fuzzies]
      refine List.Nodup.append ?_ ?_ ?_
      · exact (h.filter _).map (fun a b hab => by simpa using hab)
      · exact ih.map (fun a b hab => by simpa using hab)
      · intro x hx1 hx2
        rw [List.mem_map] at hx1 hx2
        obtain ⟨new, hnew, rfl⟩ := hx1
        obtain ⟨tail, _, heq⟩ := hx2
        have hno : new ≠ old := by
          have := (List.mem_filter.mp hnew).2
          simpa using this
        exact hno ((List.cons.inj heq).1).symm

theorem setStep_base {V : Type} (d : FuzzyDict V) (value : V) (f : Word) :
    (setStep d value f).base = d.base := by
  unfold setStep
  repeat' split
  all_goals rfl

theorem setStep_chars {V : Type} (d : FuzzyDict V) (value : V) (f : Word) :
    (setStep d value f).chars = d.chars := by
  unfold setStep
  repeat' split
  all_goals rfl

theorem setLoop_base {V : Type} (value : V) (l : List Word) (d : FuzzyDict V) :
    (setLoop d value l).base = d.base := by
  induction l generalizing d with
  | nil => rfl
  | cons f rest ih => rw [setLoop, ih, setStep_base]

theorem setLoop_chars {V : Type} (value : V) (l : List Word) (d : FuzzyDict V) :
    (setLoop d value l).chars = d.chars := by
  induction l generalizing d with
  | nil => rfl
  | cons f rest ih => rw [setLoop, ih, setStep_chars]

theorem setStep_data_ne {V : Type} (d : FuzzyDict V) (value : V) {f s : Word}
    (h : s ≠ f) : (setStep d value f).data s = d.data s := by
  unfold setStep
  split
  · simp [upd, h]
  · split
    · simp [upd, h]
    · rfl

theorem setStep_data_base {V : Type} (d : FuzzyDict V) (value : V) {s : Word}
    (h : d.base s = true) : (setStep d value s).data s = d.data s := by
  unfold setStep
  rw [h]
  simp

theorem setLoop_data_of_base {V : Type} (value : V) (l : List Word) {s : Word}
    (d : FuzzyDict V) (hs : d.base s = true) :
    (setLoop d value l).data s = d.data s := by
  induction l generalizing d with
  | nil => rfl
  | cons f rest ih =>
      rw [setLoop]
      have hbase : (setStep d value f).base = d.base := setStep_base d value f
      rw [ih (setStep d value f) (hbase ▸ hs)]
      by_cases hfs : s = f
      · subst hfs; exact setStep_data_base d value hs
      · exact setStep_data_ne d value hfs

theorem setLoop_data_of_not_mem {V : Type} (value : V) {l : List Word} {s : Word}
    (d : FuzzyDict V) (h : s ∉ l) :
    (setLoop d value l).data s = d.data s := by
  induction l generalizing d with
  | nil => rfl
  | cons f rest ih =>
      rw [setLoop]
      have hne : s ≠ f := fun hfs => h (hfs ▸ List.mem_cons_self f rest)
      rw [ih (setStep d value f) (fun hm => h (List.mem_cons.mpr (Or.inr hm)))]
      exact setStep_data_ne d value hne

theorem setLoop_data_of_mem {V : Type} (value : V) {l : List Word} {s : Word}
    (d : FuzzyDict V) (h : s ∈ l) (hnd : l.Nodup) (hb : d.base s = false) :
    (setLoop d value l).data s =
      if (d.data s).isSome then some none else some (some value) := by
  induction l generalizing d with
  | nil => cases h
  | cons f rest ih =>
      rw [setLoop]
      rcases List.mem_cons.mp h with rfl | hmem
      · have hrest : s ∉ rest := (List.nodup_cons.mp hnd).1
        rw [setLoop_data_of_not_mem value (setStep d value s) hrest]
        unfold setStep
        rw [hb]
        by_cases hd : (d.data s).isSome
        · simp [hd, upd]
        · simp [hd, upd]
      · have hne : s ≠ f := fun hfs => (List.nodup_cons.mp hnd).1 (hfs ▸ hmem)
        have hbase : (setStep d value f).base = d.base := by
          unfold setStep; split <;> try split
          all_goals rfl
        rw [ih (setStep d value f) hmem (List.nodup_cons.mp hnd).2 (hbase ▸ hb),
            setStep_data_ne d value hne]

theorem setLoop_strict {V : Type} (value : V) (l : List Word) (d : FuzzyDict V) :
    (setLoop d value l).strict = d.strict := by
  induction l generalizing d with
  | nil => rfl
  | cons f rest ih =>
      rw [setLoop, ih]
      unfold setStep
      repeat' split
      all_goals rfl

end FuzzyDict

open FuzzyDict in
/-- Claim C1. FuzzyMap neighborhood law: over a duplicate-free character
set `chars`, after inserting only the trimmed base key `k` with value
`v`, lookup returns `v` for every key `n` at Hamming distance 0 or 1
from `k` over `chars`; after additionally inserting a base key `k2` at
Hamming distance 1 from `k` with value `v2`, lookup of `k` and of `k2`
return their own values, and lookup of every shared distance-1
neighbour `m` of `k` and `k2` returns absent (`none`). -/
theorem fuzzy_neighborhood_law {V : Type} (chars : Word) (strictF : Bool)
    (hchars : chars.Nodup)
    (k k2 n m : Word) (v v2 : V)
    (hk : ∀ c ∈ k, c ∈ chars)
    (d1 d2 : FuzzyDict V)
    (h1 : FuzzyDict.setItem (FuzzyDict.empty chars strictF) k v = some d1)
    (hk2 : hammingOne chars k k2)
    (h2 : FuzzyDict.setItem d1 k2 v2 = some d2)
    (hn : withinOne chars k n)
    (hm1 : hammingOne chars k m) (hm2 : hammingOne chars k2 m) :
    d1.getItem n = some v ∧ d2.getItem k = some v ∧
      d2.getItem k2 = some v2 ∧ d2.getItem m = none := by
  have htk : trim chars k = k := trim_eq_self hk
  have hk2chars : ∀ c ∈ k2, c ∈ chars := hammingOne_mem_chars hk hk2
  have htk2 : trim chars k2 = k2 := trim_eq_self hk2chars
  have hk2ne : k2 ≠ k := hammingOne_ne hk2
  have hmchars : ∀ c ∈ m, c ∈ chars := hammingOne_mem_chars hk hm1
  have htm : trim chars m = m := trim_eq_self hmchars
  have hmnek : m ≠ k := hammingOne_ne hm1
  have hmnek2 : m ≠ k2 := hammingOne_ne hm2
  -- the state after the first insert
  have h1' : d1 = FuzzyDict.setLoop
      ⟨chars, strictF, fun s => if s = k then true else false,
        FuzzyDict.upd (fun _ => none) k (some (some v))⟩ v (fuzzies chars k) := by
    rw [FuzzyDict.setItem] at h1
    simp only [FuzzyDict.empty, FuzzyDict.fuzziesOf, htk, Bool.false_and] at h1
    rw [if_neg (by decide : ¬(false = true))] at h1
    exact (Option.some.inj h1).symm
  set e1 : FuzzyDict V :=
      ⟨chars, strictF, fun s => if s = k then true else false,
        FuzzyDict.upd (fun _ => none) k (some (some v))⟩ with he1
  have hd1chars : d1.chars = chars := by rw [h1']; exact FuzzyDict.setLoop_chars v _ e1
  have hd1base : d1.base = e1.base := by rw [h1']; exact FuzzyDict.setLoop_base v _ e1
  -- data of d1 at k and at any distance-1 neighbour of k
  have hd1k : d1.data k = some (some v) := by
    rw [h1', FuzzyDict.setLoop_data_of_base v _ e1 (by simp)]
    simp [FuzzyDict.upd]
  have hd1f : ∀ w, hammingOne chars k w → d1.data w = some (some v) := by
    intro w hw
    have hwne : w ≠ k := hammingOne_ne hw
    rw [h1', FuzzyDict.setLoop_data_of_mem v e1 (mem_fuzzies_of_hammingOne hw)
      (fuzzies_nodup hchars k) (by simp [hwne])]
    simp [FuzzyDict.upd, hwne]
  -- conclusion 1: every key within distance one of k resolves to v
  have goal1 : d1.getItem n = some v := by
    rcases hn with rfl | hnf
    · rw [FuzzyDict.getItem, hd1chars, htk, hd1k]; rfl
    · have hnchars := hammingOne_mem_chars hk hnf
      rw [FuzzyDict.getItem, hd1chars, trim_eq_self hnchars, hd1f n hnf]; rfl
  -- the state after the second insert
  have h2' : d2 = FuzzyDict.setLoop
      (⟨chars, d1.strict, fun s => if s = k2 then true else d1.base s,
        FuzzyDict.upd d1.data k2 (some (some v2))⟩ : FuzzyDict V) v2
      (fuzzies chars k2) := by
    rw [FuzzyDict.setItem] at h2
    rw [hd1chars, htk2] at h2
    have hgate : (d1.base k2 && d1.strict) = false := by
      rw [hd1base, he1]
      simp [hk2ne]
    rw [hgate, if_neg (by decide : ¬(false = true))] at h2
    simp only [FuzzyDict.fuzziesOf] at h2
    rw [htk2] at h2
    exact (Option.some.inj h2).symm
  set e2 : FuzzyDict V :=
      ⟨chars, d1.strict, fun s => if s = k2 then true else d1.base s,
        FuzzyDict.upd d1.data k2 (some (some v2))⟩ with he2
  have hd2chars : d2.chars = chars := by
    rw [h2', FuzzyDict.setLoop_chars]
  have hbase2 : ∀ s, e2.base s = (if s = k2 then true else d1.base s) := fun s => rfl
  have hdata2 : ∀ s, e2.data s = FuzzyDict.upd d1.data k2 (some (some v2)) s := fun s => rfl
  -- conclusion 2: k still resolves to v
  have goal2 : d2.getItem k = some v := by
    have hbk : e2.base k = true := by
      rw [hbase2, if_neg (fun h => hk2ne h.symm), hd1base, he1]
      simp
    have hdk : d2.data k = some (some v) := by
      rw [h2', FuzzyDict.setLoop_data_of_base v2 _ e2 hbk, hdata2, FuzzyDict.upd,
        if_neg (fun h => hk2ne h.symm), hd1k]
    rw [FuzzyDict.getItem, hd2chars, htk, hdk]; rfl
  -- conclusion 3: k2 resolves to v2
  have goal3 : d2.getItem k2 = some v2 := by
    have hbk2 : e2.base k2 = true := by rw [hbase2]; simp
    have hdk2 : d2.data k2 = some (some v2) := by
      rw [h2', FuzzyDict.setLoop_data_of_base v2 _ e2 hbk2, hdata2, FuzzyDict.upd]
      simp
    rw [FuzzyDict.getItem, hd2chars, htk2, hdk2]; rfl
  -- conclusion 4: a shared neighbour of k and k2 resolves to absent
  have goal4 : d2.getItem m = none := by
    have hbm : e2.base m = false := by
      rw [hbase2, if_neg hmnek2, hd1base, he1]
      simp [hmnek]
    have hdm : d2.data m = some none := by
      rw [h2', FuzzyDict.setLoop_data_of_mem v2 e2 (mem_fuzzies_of_hammingOne hm2)
        (fuzzies_nodup hchars k2) hbm, hdata2, FuzzyDict.upd, if_neg hmnek2,
        hd1f m hm1]
      rfl
    rw [FuzzyDict.getItem, hd2chars, htm, hdm]; rfl
  exact ⟨goal1, goal2, goal3, goal4⟩

/-- Witness for the FuzzyDict neighborhood law, over the character set
a b c with base keys a (value 1) and b (value 2) and shared distance-1
neighbour c. -/
theorem fuzzy_neighborhood_law_witness :
    FuzzyDict.getItem fd1 ['c'] = some 1 ∧ FuzzyDict.getItem fd2 ['a'] = some 1 ∧
      FuzzyDict.getItem fd2 ['b'] = some 2 ∧ FuzzyDict.getItem fd2 ['c'] = none :=
  fuzzy_neighborhood_law ['a', 'b', 'c'] true (by decide) ['a'] ['b'] ['c'] ['c'] 1 2
    (by decide) fd1 fd2 rfl
    ⟨[], 'a', 'b', [], by decide, by decide, rfl, rfl⟩
    rfl
    (Or.inr ⟨[], 'a', 'c', [], by decide, by decide, rfl, rfl⟩)
    ⟨[], 'a', 'c', [], by decide, by decide, rfl, rfl⟩
    ⟨[], 'b', 'c', [], by decide, by decide, rfl, rfl⟩

/-! ### Numerics lemmas -/

theorem conformLoop_self (B : ℤ) (fuel : Nat) (x : ℤ × ℤ × ℤ) :
    Lexicon.conformLoop B fuel x x.2.2 = some x := by
  cases fuel <;> simp [Lexicon.conformLoop]

theorem wordDigitsLoop_zero (digits : Word) (fuel : Nat) (acc : Word) :
    Lexicon.wordDigitsLoop digits fuel 0 acc = some acc := by
  rw [Lexicon.wordDigitsLoop.eq_def]
  simp

/-- Claim C9. Subtracting any word from itself conforms two equal
fractions, yielding zero whole part and zero numerator, which the word
renderer turns into the empty string with no digits, no decimal mark
and no sign. -/
theorem subtract_self_empty (L : Lexicon) (fuel : Nat) (a : Word) :
    Lexicon.subtract L fuel a a = some [] := by
  unfold Lexicon.subtract Lexicon.conform
  simp only [conformLoop_self, Option.bind_eq_bind, Option.some_bind]
  simp [Lexicon.word, wordDigitsLoop_zero]

/-- Claim C5. Method `mod` raises on every input (it subscripts the
float `x` and references the undefined name `total`), so the modulus
operation never returns a word, contrary to the specified
word-rendering of (wx mod wy, nx, d). -/
theorem mod_always_faults (L : Lexicon) (a b : Word) :
    Lexicon.mod L a b = none := rfl

/-- Claim C3. Executing the parsed if-skip scenario over digits
abcdefghij does not skip: the false constant `bozo` has numeric value
1 (its character b is the digit of value one), so `if false` is truthy
and the output is the word skipped followed by the word shown, not
shown alone as the specification states. -/
theorem if_false_skip_bug :
    (Interpreter.run demoLex prog3 5 (Interpreter.initState demoLex [])).map ExecState.output
        = some [OutEvent.word "skipped".data, OutEvent.word "shown".data] ∧
      Lexicon.float demoLex "bozo".data = 1 := by
  exact ⟨rfl, by decide⟩

theorem digitIndex_pos {digits : Word} {c : Char} {i : Nat}
    (h : digitIndex digits c = some i) : 0 < digits.length := by
  cases digits with
  | nil => simp [digitIndex] at h
  | cons d ds => simp

theorem fracLoop_den_pos (digits decimals : Word) :
    ∀ (w : Word) (whole numer denom : ℤ) (m : Bool), 0 < denom →
      0 < (fracLoop digits decimals w whole numer denom m).2.2 := by
  intro w
  induction w with
  | nil => intro _ _ _ _ h; simpa [fracLoop] using h
  | cons c rest ih =>
      intro whole numer denom m h
      rw [fracLoop]
      cases hd : digitIndex digits c with
      | some i =>
          have hlen : 0 < digits.length := digitIndex_pos hd
          cases m with
          | true => simpa using ih _ _ _ _ h
          | false =>
              have : 0 < denom * (digits.length : ℤ) := by positivity
              simpa using ih _ _ _ _ this
      | none =>
          by_cases hc : c ∈ decimals
          · simpa [hc] using ih _ _ _ _ h
          · simpa [hc] using ih _ _ _ _ h

theorem fraction_den_pos (L : Lexicon) (w : Word) : 0 < (L.fraction w).2.2 := by
  have h := fracLoop_den_pos L.digits L.decimals (w.map Char.toLower) 0 0 1 true one_pos
  unfold Lexicon.fraction fractionCore fracScanCore
  split <;> simpa using h

/-- Claim C4. When neither word has fractional digits (both fraction
numerators are zero) and the product of the whole parts is positive,
`multiply` computes denominator 0 (the product of the two numerators)
and a positive numerator, so the whole/num split reaches
divmod(numerator, 0): a division-by-zero fault on every such input,
and no word is ever returned. -/
theorem multiply_zero_denominator_fault (L : Lexicon) (fuel : Nat) (a b : Word)
    (ha : (L.fraction a).2.1 = 0) (hb : (L.fraction b).2.1 = 0)
    (hp : 0 < (L.fraction a).1 * (L.fraction b).1) :
    Lexicon.multiply L fuel a b = none := by
  unfold Lexicon.multiply
  dsimp only
  rw [ha, hb]
  have hda := fraction_den_pos L a
  have hdb := fraction_den_pos L b
  have hnum : 0 < ((L.fraction a).1 * (L.fraction a).2.2 + 0) *
      ((L.fraction b).1 * (L.fraction b).2.2 + 0) := by
    have h1 : ((L.fraction a).1 * (L.fraction a).2.2 + 0) *
        ((L.fraction b).1 * (L.fraction b).2.2 + 0)
        = ((L.fraction a).1 * (L.fraction b).1) *
          ((L.fraction a).2.2 * (L.fraction b).2.2) := by ring
    rw [h1]
    exact mul_pos hp (mul_pos hda hdb)
  rw [if_pos (by simpa using hnum), if_pos (by ring)]

/-- Witness for the multiply fault: the words b and c have integer
values 1 and 2 over the standard lexicon, and multiplying them
faults. -/
theorem multiply_zero_denominator_fault_witness :
    (Lexicon.fraction demoLex "b".data).2.1 = 0 ∧
      (Lexicon.fraction demoLex "c".data).2.1 = 0 ∧
      0 < (Lexicon.fraction demoLex "b".data).1 * (Lexicon.fraction demoLex "c".data).1 ∧
      Lexicon.multiply demoLex 5 "b".data "c".data = none :=
  ⟨by decide, by decide, by decide,
    multiply_zero_denominator_fault demoLex 5 "b".data "c".data
      (by decide) (by decide) (by decide)⟩

theorem divInt_whole_add (a n d : ℤ) (h : 0 < d) :
    Rat.divInt (a * d + n) d = (a : ℚ) + (n : ℚ) / (d : ℚ) := by
  rw [Rat.divInt_eq_div]
  have hd : (d : ℚ) ≠ 0 := Int.cast_ne_zero.mpr (by omega)
  push_cast
  field_simp

theorem divInt_int (a : ℤ) : Rat.divInt a 1 = (a : ℚ) := by
  rw [Rat.divInt_eq_div]
  simp

theorem fracScan_den_pos (L : Lexicon) (w : Word) : 0 < (L.fracScan w).2.2 := by
  have h := fracLoop_den_pos L.digits L.decimals (w.map Char.toLower) 0 0 1 true one_pos
  simpa [Lexicon.fracScan, fracScanCore] using h

/-- Counterexample to claim C6 as stated: the word minus b point c has
one sign character (odd), unsigned fraction (1, 2, 10), and numeric
value -4/5, which differs from the negation -(1 + 2/10) = -6/5 of its
unsigned value: an odd sign count does not negate the whole value. -/
theorem num_sign_negation_cex :
    signCount demoLex.signs "-b.c".data % 2 = 1 ∧
      Lexicon.fracScan demoLex "-b.c".data = (1, 2, 10) ∧
      Lexicon.num demoLex "-b.c".data = Rat.divInt (-4) 5 ∧
      Rat.divInt (-4) 5 ≠ -((1 : ℚ) + (2 : ℚ) / (10 : ℚ)) := by
  refine ⟨by decide, by decide, by decide, ?_⟩
  rw [Rat.divInt_eq_div]
  norm_num

/-- Claim C6 amended: for a word with an odd count of sign characters,
only the whole part is negated, so num(w) = (-whole) + num/den over
the unsigned fraction (whole, num, den); this is the full negation of
the value exactly when the numerator is zero. -/
theorem num_sign_negates_whole_only (L : Lexicon) (w : Word)
    (h : signCount L.signs w % 2 = 1) :
    Lexicon.num L w =
      -((L.fracScan w).1 : ℚ) +
        ((L.fracScan w).2.1 : ℚ) / ((L.fracScan w).2.2 : ℚ) := by
  have hden : 0 < (L.fracScan w).2.2 := fracScan_den_pos L w
  have hscan : Lexicon.fracScan L w = fracScanCore L.digits L.decimals w := rfl
  unfold Lexicon.num numCore fractionCore
  rw [← hscan, if_pos h]
  dsimp only
  by_cases h0 : (L.fracScan w).2.1 = 0
  · rw [if_neg (by simpa using h0), divInt_int, h0]
    push_cast
    simp
  · rw [if_pos (by simpa using h0), divInt_whole_add _ _ _ hden]
    push_cast
    ring

/-- Witness for the amended sign-negation law at the word minus b
point c. -/
theorem num_sign_negates_whole_only_witness :
    signCount demoLex.signs "-b.c".data % 2 = 1 ∧
      Lexicon.num demoLex "-b.c".data =
        -((Lexicon.fracScan demoLex "-b.c".data).1 : ℚ) +
          ((Lexicon.fracScan demoLex "-b.c".data).2.1 : ℚ) /
            ((Lexicon.fracScan demoLex "-b.c".data).2.2 : ℚ) :=
  ⟨by decide, num_sign_negates_whole_only demoLex "-b.c".data (by decide)⟩

/-- Claim C7. Parser underflow truncation: whenever the argument
parser for the statement resolved from the next token reports the
token underflow (`IndexError`), which can only happen with the token
stack exhausted, the partially built statement is discarded and the
parse of the whole list returns the statements accumulated so far
followed by a single bare exit statement as the final statement. -/
theorem parse_underflow_truncation (L : Lexicon) (w : Word) (rest : List Word)
    (acc : List Expr) (s : String) (n : Nat)
    (hs : Lexicon.tight L w = some s) (hn : Interpreter.args s = some n)
    (hu : Interpreter.parseArgs L n rest = Except.error ParseErr.indexError) :
    Interpreter.parseLoop L (w :: rest) acc = some (acc ++ [Expr.app "exit" []]) := by
  rw [Interpreter.parseLoop]
  simp only [hs, hn, hu]

/-- Witness for the underflow truncation: a one-token program whose
statement needs one argument, after one already parsed statement. -/
theorem parse_underflow_truncation_witness :
    Interpreter.parseLoop demoLex ["foo".data] [Expr.app "print" [Expr.word "x".data]]
      = some ([Expr.app "print" [Expr.word "x".data]] ++ [Expr.app "exit" []]) :=
  parse_underflow_truncation demoLex "foo".data [] [Expr.app "print" [Expr.word "x".data]]
    "go" 1 (by decide) rfl (by rw [Interpreter.parseArgs])

/-- Claim C10. Left/right round trip: in a fixed program state, for
argument expressions T and N whose evaluation is deterministic (it
returns the input stream unchanged, as any input-free evaluation
does), the concatenation of func_left(T, N) and the subsequent
func_right(T, N) is the evaluated value of T, because both compute the
same split index int(N) mod (len(text) + 1). -/
theorem left_right_round_trip (L : Lexicon) (vars : FuzzyDict Word) (fuel : Nat)
    (T N : Expr) (inp : List Word) (tv nv l r : Word) (i1 i2 : List Word)
    (hT : Interpreter.evaluate L vars fuel T inp = some (tv, inp))
    (hN : Interpreter.evaluate L vars fuel N inp = some (nv, inp))
    (hL : Interpreter.funcLeft L vars fuel T N inp = some (l, i1))
    (hR : Interpreter.funcRight L vars fuel T N i1 = some (r, i2)) :
    l ++ r = tv := by
  unfold Interpreter.funcLeft at hL
  rw [hT] at hL
  simp only [Option.bind_eq_bind, Option.some_bind] at hL
  rw [hN] at hL
  simp only [Option.some_bind, Option.some.injEq, Prod.mk.injEq] at hL
  obtain ⟨hl, hi1⟩ := hL
  subst hi1
  unfold Interpreter.funcRight at hR
  rw [hT] at hR
  simp only [Option.bind_eq_bind, Option.some_bind] at hR
  rw [hN] at hR
  simp only [Option.some_bind, Option.some.injEq, Prod.mk.injEq] at hR
  obtain ⟨hr, _⟩ := hR
  rw [← hl, ← hr]
  exact List.take_append_drop _ tv

/-- Witness for the round trip: splitting the literal hello at the
index given by the word c (value two). -/
theorem left_right_round_trip_witness :
    Interpreter.funcLeft demoLex (FuzzyDict.empty demoChars false) 1
        (Expr.word "hello".data) (Expr.word "c".data) [] = some ("he".data, []) ∧
      Interpreter.funcRight demoLex (FuzzyDict.empty demoChars false) 1
          (Expr.word "hello".data) (Expr.word "c".data) [] = some ("llo".data, []) ∧
      "he".data ++ "llo".data = "hello".data :=
  ⟨rfl, rfl,
    left_right_round_trip demoLex (FuzzyDict.empty demoChars false) 1
      (Expr.word "hello".data) (Expr.word "c".data) [] "hello".data "c".data
      "he".data "llo".data [] [] rfl rfl rfl rfl⟩

theorem conformLoop_noop (B : ℤ) (fuel : Nat) (x : ℤ × ℤ × ℤ) (t : ℤ)
    (h : t ≤ x.2.2) : Lexicon.conformLoop B fuel x t = some x := by
  cases fuel <;> simp [Lexicon.conformLoop, not_lt.mpr h]

theorem conformLoop_raise (B : ℤ) (hB : 2 ≤ B) (w : ℤ) :
    ∀ (k i fuel : Nat) (n : ℤ), k ≤ fuel →
      Lexicon.conformLoop B fuel (w, n, B ^ i) (B ^ (i + k))
        = some (w, n * B ^ k, B ^ (i + k)) := by
  intro k
  induction k with
  | zero =>
      intro i fuel n _
      have h := conformLoop_noop B fuel (w, n, B ^ i) (B ^ (i + 0)) (by simp)
      simpa using h
  | succ k ih =>
      intro i fuel n hf
      cases fuel with
      | zero => omega
      | succ f =>
          rw [Lexicon.conformLoop]
          have h1 : (1 : ℤ) < B := by omega
          have hlt : B ^ i < B ^ (i + (k + 1)) := by
            exact pow_lt_pow_right₀ h1 (by omega)
          rw [if_pos (by simpa using hlt)]
          have step : Lexicon.conformLoop B f (w, n * B, B ^ (i + 1)) (B ^ ((i + 1) + k))
              = some (w, (n * B) * B ^ k, B ^ ((i + 1) + k)) := ih (i + 1) f (n * B) (by omega)
          have e1 : B ^ i * B = B ^ (i + 1) := (pow_succ B i).symm
          have e2 : (i + 1) + k = i + (k + 1) := by omega
          have e3 : (n * B) * B ^ k = n * B ^ (k + 1) := by
            rw [pow_succ]
            ring
          rw [show ((w, n, B ^ i).1, (w, n, B ^ i).2.1 * B, (w, n, B ^ i).2.2 * B)
              = (w, n * B, B ^ (i + 1)) from by rw [← e1]]
          rw [e2] at step
          rw [step, e3]

theorem fracVal_raise (B : ℤ) (hB : 2 ≤ B) (w n : ℤ) (i k : Nat) :
    fracVal (w, n * B ^ k, B ^ (i + k)) = fracVal (w, n, B ^ i) := by
  unfold fracVal
  have hBQ : (B : ℚ) ≠ 0 := Int.cast_ne_zero.mpr (by omega)
  have h1 : ((B : ℚ)) ^ i ≠ 0 := pow_ne_zero _ hBQ
  have h2 : ((B : ℚ)) ^ k ≠ 0 := pow_ne_zero _ hBQ
  push_cast
  rw [pow_add]
  field_simp
  ring

/-- Claim C8. For base at least two and fractions whose denominators
are the powers i and j of the base, `conform` terminates within
max i j loop iterations and returns two fractions with the equal
denominator B ^ max i j, the smaller-denominator fraction having had
numerator and denominator multiplied by B until the denominators
match, and each result is equal in value to its input. -/
theorem conform_power_denominators (L : Lexicon) (fuel : Nat)
    (wx nx wy ny : ℤ) (i j : Nat)
    (hB : 2 ≤ L.base) (hf : max i j ≤ fuel) :
    Lexicon.conform L fuel (wx, nx, (L.base : ℤ) ^ i) (wy, ny, (L.base : ℤ) ^ j)
        = some ((wx, nx * (L.base : ℤ) ^ (max i j - i), (L.base : ℤ) ^ max i j),
                (wy, ny * (L.base : ℤ) ^ (max i j - j), (L.base : ℤ) ^ max i j)) ∧
      fracVal (wx, nx * (L.base : ℤ) ^ (max i j - i), (L.base : ℤ) ^ max i j)
        = fracVal (wx, nx, (L.base : ℤ) ^ i) ∧
      fracVal (wy, ny * (L.base : ℤ) ^ (max i j - j), (L.base : ℤ) ^ max i j)
        = fracVal (wy, ny, (L.base : ℤ) ^ j) := by
  set B : ℤ := (L.base : ℤ) with hBdef
  have hBZ : 2 ≤ B := by rw [hBdef]; exact_mod_cast hB
  rcases le_total i j with hij | hij
  · have hmax : max i j = j := max_eq_right hij
    have hx : Lexicon.conformLoop B fuel (wx, nx, B ^ i) (B ^ j) =
        some (wx, nx * B ^ (j - i), B ^ j) := by
      have := conformLoop_raise B hBZ wx (j - i) i fuel nx (by omega)
      rwa [show i + (j - i) = j from by omega] at this
    have hy : Lexicon.conformLoop B fuel (wy, ny, B ^ j) (B ^ j) =
        some (wy, ny, B ^ j) := conformLoop_noop B fuel _ _ (le_refl _)
    refine ⟨?_, ?_, ?_⟩
    · unfold Lexicon.conform
      rw [← hBdef]
      simp only [hx, Option.bind_eq_bind, Option.some_bind, hy, hmax]
      rw [show j - j = 0 from by omega]
      simp
    · rw [hmax, show (j : Nat) = i + (j - i) from by omega]
      rw [show i + (j - i) - i = j - i from by omega]
      exact fracVal_raise B hBZ wx nx i (j - i)
    · rw [hmax, show j - j = 0 from by omega]
      simp
  · have hmax : max i j = i := max_eq_left hij
    have hx : Lexicon.conformLoop B fuel (wx, nx, B ^ i) (B ^ j) =
        some (wx, nx, B ^ i) := by
      refine conformLoop_noop B fuel _ _ ?_
      have h1 : (1 : ℤ) ≤ B := by omega
      exact pow_le_pow_right₀ h1 hij
    have hy : Lexicon.conformLoop B fuel (wy, ny, B ^ j) (B ^ i) =
        some (wy, ny * B ^ (i - j), B ^ i) := by
      have := conformLoop_raise B hBZ wy (i - j) j fuel ny (by omega)
      rwa [show j + (i - j) = i from by omega] at this
    refine ⟨?_, ?_, ?_⟩
    · unfold Lexicon.conform
      rw [← hBdef]
      simp only [hx, Option.bind_eq_bind, Option.some_bind, hy, hmax]
      rw [show i - i = 0 from by omega]
      simp
    · rw [hmax, show i - i = 0 from by omega]
      simp
    · rw [hmax, show (i : Nat) = j + (i - j) from by omega]
      rw [show j + (i - j) - j = i - j from by omega]
      exact fracVal_raise B hBZ wy ny j (i - j)

/-- Witness for the conform law: denominators ten and hundred over the
standard base-ten lexicon, with fuel two. -/
theorem conform_power_denominators_witness :
    Lexicon.conform demoLex 2 (1, 2, (demoLex.base : ℤ) ^ 1) (3, 4, (demoLex.base : ℤ) ^ 2)
        = some ((1, 2 * (demoLex.base : ℤ) ^ (max 1 2 - 1), (demoLex.base : ℤ) ^ max 1 2),
                (3, 4 * (demoLex.base : ℤ) ^ (max 1 2 - 2), (demoLex.base : ℤ) ^ max 1 2)) ∧
      fracVal (1, 2 * (demoLex.base : ℤ) ^ (max 1 2 - 1), (demoLex.base : ℤ) ^ max 1 2)
        = fracVal (1, 2, (demoLex.base : ℤ) ^ 1) ∧
      fracVal (3, 4 * (demoLex.base : ℤ) ^ (max 1 2 - 2), (demoLex.base : ℤ) ^ max 1 2)
        = fracVal (3, 4, (demoLex.base : ℤ) ^ 2) :=
  conform_power_denominators demoLex 2 1 2 3 4 1 2 (by decide) (by decide)

theorem processAliases_lexvars (key : Word) :
    ∀ (als : List Word) (st st2 : LexInitState),
      processAliases key st als = some st2 → st2.lexvars = st.lexvars := by
  intro als
  induction als with
  | nil =>
      intro st st2 h
      simp only [processAliases] at h
      rw [← Option.some.inj h]
  | cons al rest ih =>
      intro st st2 h
      rw [processAliases] at h
      split at h
      · exact (ih _ _ h).trans rfl
      · cases hk : st.keywords with
        | none => rw [hk] at h; cases h
        | some kw =>
            simp only [hk] at h
            cases hset : FuzzyDict.setItem kw (stripList al) (String.mk key) with
            | none => simp only [hset] at h; cases h
            | some kw2 =>
                simp only [hset] at h
                exact (ih _ _ h).trans rfl

theorem maybeDerive_inv (st : LexInitState)
    (h : ∀ vd, st.lexvars = some vd → ∀ w, vd.data w = none) :
    ∀ vd, (maybeDerive st).lexvars = some vd → ∀ w, vd.data w = none := by
  unfold maybeDerive
  split
  · intro vd hvd w
    have : FuzzyDict.empty (st.digits ++ st.decimals ++ st.signs) false = vd :=
      Option.some.inj hvd
    rw [← this]
    rfl
  · exact h

theorem initLine_inv (st st2 : LexInitState) (line : Word)
    (hinv : ∀ vd, st.lexvars = some vd → ∀ w, vd.data w = none)
    (h : initLine st line = some st2) :
    ∀ vd, st2.lexvars = some vd → ∀ w, vd.data w = none := by
  unfold initLine at h
  split at h
  · rw [← Option.some.inj h]; exact hinv
  · split at h
    · rw [← Option.some.inj h]; exact hinv
    · rcases hsp : splitOnChar ':' (lowerList (stripList line)) with _ | ⟨key0, _ | ⟨value, _ | _⟩⟩
      · simp only [hsp] at h; cases h
      · simp only [hsp] at h; cases h
      · simp only [hsp] at h
        split at h
        · cases h
        · rename_i st3 hst3
          rw [← Option.some.inj h]
          refine maybeDerive_inv st3 ?_
          split at hst3
          · rw [← Option.some.inj hst3]; exact hinv
          · split at hst3
            · rw [← Option.some.inj hst3]; exact hinv
            · split at hst3
              · rw [← Option.some.inj hst3]; exact hinv
              · intro vd hvd
                exact hinv vd ((processAliases_lexvars _ _ _ _ hst3) ▸ hvd)
      · simp only [hsp] at h; cases h

theorem lexInitLines_inv :
    ∀ (lines : List Word) (st st2 : LexInitState),
      (∀ vd, st.lexvars = some vd → ∀ w, vd.data w = none) →
      lexInitLines st lines = some st2 →
      ∀ vd, st2.lexvars = some vd → ∀ w, vd.data w = none := by
  intro lines
  induction lines with
  | nil =>
      intro st st2 hinv h
      simp only [lexInitLines] at h
      rw [← Option.some.inj h]
      exact hinv
  | cons line rest ih =>
      intro st st2 hinv h
      rw [lexInitLines] at h
      cases hil : initLine st line with
      | none => rw [hil] at h; cases h
      | some stm =>
          rw [hil] at h
          exact ih _ _ (initLine_inv st stm line hinv hil) h

/-- Claim C2 amended: loading any lexicon file leaves the variables
FuzzyDict of the lexicon empty (it is created empty once the character
classes are known and nothing is ever inserted during loading), so
every lookup in it is absent, and the variable scope the interpreter
copies from it at the start of each execution is equally empty: no
constant word is pre-bound. -/
theorem lexicon_variables_empty (lines : List Word) (L : Lexicon) (w : Word)
    (h : Lexicon.init lines = some L) :
    FuzzyDict.getItem L.vars w = none ∧
      FuzzyDict.getItem (Interpreter.startVars L) w = none := by
  unfold Lexicon.init at h
  cases hst : lexInitLines {} lines with
  | none => rw [hst] at h; cases h
  | some st =>
      rw [hst] at h
      simp only [Option.bind_eq_bind, Option.some_bind] at h
      have hinv := lexInitLines_inv lines {} st (by intro vd hvd; cases hvd) hst
      unfold buildLexicon at h
      cases hkw : st.keywords with
      | none => rw [hkw] at h; cases h
      | some kw =>
          cases hlv : st.lexvars with
          | none => rw [hkw, hlv] at h; cases h
          | some vs =>
              rw [hkw, hlv] at h
              rcases hsc : sortCmds st.commands with _ | ⟨first, _ | ⟨second, tail⟩⟩
              · simp only [hsc] at h; cases h
              · simp only [hsc] at h; cases h
              · simp only [hsc] at h
                have hvars : L.vars = vs := by rw [← Option.some.inj h]
                have hdata := hinv vs hlv
                constructor
                · unfold FuzzyDict.getItem
                  rw [hvars, hdata]
                  rfl
                · unfold FuzzyDict.getItem Interpreter.startVars FuzzyDict.copy
                  simp only [hvars, hdata]
                  rfl

/-- Witness for the empty-variables law on the demonstration lexicon
file, at the alias word of the true constant. -/
theorem lexicon_variables_empty_witness :
    FuzzyDict.getItem demoLoaded.vars "ace".data = none ∧
      FuzzyDict.getItem (Interpreter.startVars demoLoaded) "ace".data = none :=
  lexicon_variables_empty demoLines demoLoaded "ace".data rfl

/-- Counterexample to claim C2 as stated: the demonstration lexicon
file defines the character classes, two statements, and aliases for
the four zero-arity constants, loads successfully, and yet its
variables FuzzyDict holds no entry: lookups of the constant names and
of their aliases are all absent. -/
theorem lexicon_variables_not_populated_cex :
    Lexicon.init demoLines = some demoLoaded ∧
      FuzzyDict.getItem demoLoaded.vars "true".data = none ∧
      FuzzyDict.getItem demoLoaded.vars "false".data = none ∧
      FuzzyDict.getItem demoLoaded.vars "period".data = none ∧
      FuzzyDict.getItem demoLoaded.vars "space".data = none ∧
      FuzzyDict.getItem demoLoaded.vars "ace".data = none ∧
      FuzzyDict.getItem demoLoaded.vars "bozo".data = none ∧
      FuzzyDict.getItem demoLoaded.vars "dot".data = none ∧
      FuzzyDict.getItem demoLoaded.vars "gap".data = none :=
  ⟨rfl, rfl, rfl, rfl, rfl, rfl, rfl, rfl, rfl⟩
